import Mathlib

set_option autoImplicit false
set_option maxRecDepth 4000

/-!
Verification development for the SageMath-for-VScode repository.

Part 1 embeds `validateSagePath` from `src/sageDiscovery.ts`.
The filesystem and process effects of the original are modelled by an
explicit environment record, so the function becomes a pure function of
the path and the environment.
-/

namespace SageVsc

/-- Outcome of invoking an external command (`exec` in the TypeScript
source): either success with captured stdout, or failure with an error
message. -/
inductive ExecOutcome where
  | ok (stdout : String)
  | err (message : String)
deriving DecidableEq

/-- The ambient effects used by `validateSagePath`: `existsSync` from
`fs`, the result of running the candidate path with `--version`, and the
result of the fallback command printing `version()`. -/
structure SageEnv where
  existsSync : String → Bool
  execVersion : String → ExecOutcome
  execPrintVersion : String → ExecOutcome

/-- The value the promise returned by `validateSagePath` resolves with. -/
structure ValidationResult where
  valid : Bool
  version : Option String
  error : Option String
deriving DecidableEq

/-- Characters accepted by the capture group of the version regexes in
`sageDiscovery.ts` (the class of digits and dots). -/
def versionChar (c : Char) : Bool := c.isDigit || c = '.'

/-- Longest run of version characters at the head of the list (the
greedy capture of the regexes). -/
def takeVersionChars : List Char → List Char
  | [] => []
  | c :: cs => if versionChar c then c :: takeVersionChars cs else []

/-- Case-insensitive literal match: consumes `lit` (given lowercase)
from the head of the input, returning the remainder on success. -/
def dropLit : List Char → List Char → Option (List Char)
  | [], cs => some cs
  | _ :: _, [] => none
  | l :: ls, c :: cs => if c.toLower = l then dropLit ls cs else none

/-- One attempt of the version regexes at the current position: the
literal, an optional dash when `optDash` is set, then at least one
version character, whose greedy run is the captured version. -/
def matchVersionAt (lit : List Char) (optDash : Bool) (cs : List Char) : Option String :=
  match dropLit lit cs with
  | none => none
  | some rest =>
    let rest2 :=
      match rest with
      | c :: more => if optDash && c = '-' then more else rest
      | [] => rest
    match rest2 with
    | c :: _ => if versionChar c then some (String.mk (takeVersionChars rest2)) else none
    | [] => none

/-- Scan for the first position where the version pattern matches, as a
JavaScript `String.match` does. -/
def scanVersion (lit : List Char) (optDash : Bool) : List Char → Option String
  | [] => none
  | c :: cs =>
    match matchVersionAt lit optDash (c :: cs) with
    | some v => some v
    | none => scanVersion lit optDash cs

/-- Characters of a string up to the first newline
(the source takes the first line of the trimmed stdout). -/
def takeUntilNewline : List Char → List Char
  | [] => []
  | c :: cs => if c = '\n' then [] else c :: takeUntilNewline cs

/-- Version extraction of `sageDiscovery.ts:149-151`: try the pattern
`SageMath version ([0-9.]+)` case-insensitively, then `sage-?([0-9.]+)`
case-insensitively, else fall back to the first line of the trimmed
stdout. -/
def parseVersion (stdout : String) : String :=
  match scanVersion ("sagemath version ".toList) false stdout.toList with
  | some v => v
  | none =>
    match scanVersion ("sage".toList) true stdout.toList with
    | some v => v
    | none => String.mk (takeUntilNewline stdout.trim.toList)

/-- Shallow embedding of `validateSagePath` (`src/sageDiscovery.ts:120-155`).
The original always calls `resolve` and never `reject`s nor throws; the
embedding is correspondingly a total function. -/
def validateSagePath (env : SageEnv) (sagePath : String) : ValidationResult :=
  if sagePath = "" then
    { valid := false, version := none, error := some "Path is empty" }
  else if sagePath ≠ "sage" && !env.existsSync sagePath then
    { valid := false, version := none, error := some ("File not found: " ++ sagePath) }
  else
    match env.execVersion sagePath with
    | .ok stdout =>
      { valid := true, version := some (parseVersion stdout), error := none }
    | .err msg =>
      match env.execPrintVersion sagePath with
      | .ok stdout2 =>
        { valid := true, version := some stdout2.trim, error := none }
      | .err _ =>
        { valid := false, version := none, error := some ("Cannot execute SageMath: " ++ msg) }

/-- Whether an external command succeeded. -/
def ExecOutcome.isOk : ExecOutcome → Bool
  | .ok _ => true
  | .err _ => false

/-- When the existence guard fails, `validateSagePath` reports a
`File not found` error. -/
theorem validateSagePath_notFound (env : SageEnv) (p : String)
    (h1 : p ≠ "") (h2 : p ≠ "sage") (h3 : env.existsSync p = false) :
    validateSagePath env p =
      { valid := false, version := none, error := some ("File not found: " ++ p) } := by
  have hb : (decide (p ≠ "sage") && !env.existsSync p) = true := by simp [h2, h3]
  unfold validateSagePath
  rw [if_neg h1, if_pos hb]

/-- `validateSagePath` reports a valid installation exactly when the path
passes the guards and one of the two version commands succeeds. -/
theorem validateSagePath_valid_iff (env : SageEnv) (p : String) :
    (validateSagePath env p).valid = true ↔
      (p ≠ "" ∧ (p = "sage" ∨ env.existsSync p = true) ∧
        ((env.execVersion p).isOk = true ∨ (env.execPrintVersion p).isOk = true)) := by
  by_cases h1 : p = ""
  · subst h1
    constructor
    · intro hv
      simp [validateSagePath] at hv
    · rintro ⟨h, _⟩
      exact absurd rfl h
  · rcases hb : (decide (p ≠ "sage") && !env.existsSync p) with _ | _
    · have hb' : ¬((decide (p ≠ "sage") && !env.existsSync p) = true) := by
        rw [hb]
        exact Bool.false_ne_true
      have h2 : p = "sage" ∨ env.existsSync p = true := by
        by_cases hs : p = "sage"
        · exact Or.inl hs
        · right
          cases he : env.existsSync p
          · simp [hs, he] at hb
          · rfl
      rcases hok : env.execVersion p with s | m
      · have hres : validateSagePath env p =
            { valid := true, version := some (parseVersion s), error := none } := by
          unfold validateSagePath
          rw [if_neg h1, if_neg hb', hok]
        rw [hres]
        constructor
        · intro _
          exact ⟨h1, h2, Or.inl (by simp [ExecOutcome.isOk, hok])⟩
        · intro _
          rfl
      · rcases hok2 : env.execPrintVersion p with s2 | m2
        · have hres : validateSagePath env p =
              { valid := true, version := some s2.trim, error := none } := by
            unfold validateSagePath
            rw [if_neg h1, if_neg hb', hok, hok2]
          rw [hres]
          constructor
          · intro _
            exact ⟨h1, h2, Or.inr (by simp [ExecOutcome.isOk, hok2])⟩
          · intro _
            rfl
        · have hres : validateSagePath env p =
              { valid := false, version := none
              , error := some ("Cannot execute SageMath: " ++ m) } := by
            unfold validateSagePath
            rw [if_neg h1, if_neg hb', hok, hok2]
          rw [hres]
          constructor
          · intro hv
            simp at hv
          · rintro ⟨_, _, h3 | h3⟩
            · simp [ExecOutcome.isOk, hok] at h3
            · simp [ExecOutcome.isOk, hok2] at h3
    · have hres : validateSagePath env p =
          { valid := false, version := none, error := some ("File not found: " ++ p) } := by
        unfold validateSagePath
        rw [if_neg h1, if_pos hb]
      rw [hres]
      constructor
      · intro hv
        simp at hv
      · rintro ⟨_, h2, _⟩
        rcases h2 with h2 | h2
        · simp [h2] at hb
        · simp [h2] at hb

/-- A valid result always carries a version string. -/
theorem validateSagePath_valid_version (env : SageEnv) (p : String)
    (hv : (validateSagePath env p).valid = true) :
    (validateSagePath env p).version.isSome = true := by
  by_cases h1 : p = ""
  · simp [validateSagePath, h1] at hv
  · unfold validateSagePath at hv ⊢
    rw [if_neg h1] at hv ⊢
    cases hb : (decide (p ≠ "sage") && !env.existsSync p) with
    | true =>
      rw [if_pos hb] at hv
      simp at hv
    | false =>
      have hb' : ¬((decide (p ≠ "sage") && !env.existsSync p) = true) := by
        rw [hb]
        exact Bool.false_ne_true
      rw [if_neg hb'] at hv
      simp only [Bool.false_eq_true, if_false]
      rcases hok : env.execVersion p with s | m
      · simp
      · rw [hok] at hv
        rcases hok2 : env.execPrintVersion p with s2 | m2
        · simp
        · rw [hok2] at hv
          simp at hv

/-- Claim C10: `validateSagePath` always resolves and never rejects: the
empty string resolves with `valid = false` and error `Path is empty`;
any other path that is not the literal `sage` and does not exist on disk
resolves with `valid = false` and a `File not found` error; and it
resolves with `valid = true` (carrying a version string) exactly when
one of the two version commands succeeds on an existing (or `sage`)
path. -/
theorem claim_C10_validateSagePath (env : SageEnv) (p : String) :
    validateSagePath env "" =
      { valid := false, version := none, error := some "Path is empty" }
    ∧ (p ≠ "" → p ≠ "sage" → env.existsSync p = false →
        validateSagePath env p =
          { valid := false, version := none, error := some ("File not found: " ++ p) })
    ∧ ((validateSagePath env p).valid = true ↔
        (p ≠ "" ∧ (p = "sage" ∨ env.existsSync p = true) ∧
          ((env.execVersion p).isOk = true ∨ (env.execPrintVersion p).isOk = true)))
    ∧ ((validateSagePath env p).valid = true → (validateSagePath env p).version.isSome = true) :=
  ⟨rfl, validateSagePath_notFound env p, validateSagePath_valid_iff env p,
    validateSagePath_valid_version env p⟩

/-- A concrete environment with no filesystem entries and failing
commands, used to exercise `claim_C10_validateSagePath`. -/
def emptySageEnv : SageEnv :=
  { existsSync := fun _ => false
  , execVersion := fun _ => .err "spawn failed"
  , execPrintVersion := fun _ => .err "spawn failed" }

/-- Witness for claim C10 at a concrete path and environment. -/
theorem claim_C10_validateSagePath_witness :
    validateSagePath emptySageEnv "/tmp/nonexistent-sage" =
      { valid := false, version := none
      , error := some ("File not found: " ++ "/tmp/nonexistent-sage") } :=
  (claim_C10_validateSagePath emptySageEnv "/tmp/nonexistent-sage").2.1
    (by decide) (by decide) rfl

/-!
Part 2: the semantic tokenizer/classifier/encoder core of the language
server.  The Python sources (`src/server/utils.py`, `src/server/lsp.py`,
`src/server/predefinition.py`) are not part of the provided tree — only
their documentation and tests are — so the definitions below are
modelled from the specification of the core (sections 3, 4.1, 4.2, 4.3).
-/

/-- The single quote character. -/
def squote : Char := Char.ofNat 39

/-- First character of an identifier: a letter or an underscore. -/
def isIdentStart (c : Char) : Bool := c.isAlpha || c = '_'

/-- Subsequent character of an identifier: letter, digit or underscore. -/
def isIdentChar (c : Char) : Bool := c.isAlphanum || c = '_'

/-- Whether a string matches the identifier pattern. -/
def isIdentString (s : String) : Bool :=
  match s.data with
  | [] => false
  | c :: cs => isIdentStart c && cs.all isIdentChar

/-- The fixed two-character operators of the lexer. -/
def twoCharOps : List (Char × Char) :=
  [('/', '/'), ('^', '^'), ('=', '='), ('!', '='), ('<', '='), ('>', '='), ('-', '>')]

/-- The fixed single-character operators and punctuation of the lexer. -/
def oneCharOps : List Char :=
  ['-', '+', '*', '/', '%', '=', '<', '>', '.', ',', ':', ';', '(', ')',
   '[', ']', Char.ofNat 123, Char.ofNat 125, '^', '|', '&']

/-- Whether the head of the input starts a two-character operator. -/
def isTwoCharOp : List Char → Bool
  | c1 :: c2 :: _ => twoCharOps.contains (c1, c2)
  | _ => false

/-- The operator token texts the lexer can emit. -/
def opTokenStrings : List String :=
  twoCharOps.map (fun p => String.mk [p.1, p.2]) ++ oneCharOps.map (fun c => String.mk [c])

/-- Whether a token text is an operator/punctuation token. -/
def isOpToken (s : String) : Bool := decide (s ∈ opTokenStrings)

/-- Length of the run of characters satisfying `p` at the head. -/
def runLength (p : Char → Bool) : List Char → Nat
  | [] => 0
  | c :: cs => if p c then runLength p cs + 1 else 0

/-- Length of the fractional part of a numeric literal (a dot followed
by digits), zero when absent. -/
def fracLength : List Char → Nat
  | [] => 0
  | c :: cs => if c = '.' then 1 + runLength Char.isDigit cs else 0

/-- Length of the exponent part of a numeric literal
(`e` or `E`, optional sign, at least one digit), zero when absent. -/
def expLength : List Char → Nat
  | [] => 0
  | c :: cs =>
    if c = 'e' || c = 'E' then
      match cs with
      | [] => 0
      | d :: cs2 =>
        if d.isDigit then 2 + runLength Char.isDigit cs2
        else if d = '+' || d = '-' then
          match cs2 with
          | [] => 0
          | d2 :: cs3 => if d2.isDigit then 3 + runLength Char.isDigit cs3 else 0
        else 0
    else 0

/-- Length of a numeric literal (integer, decimal or exponential form)
at the head of the input, which must start with a digit. -/
def numberLength (cs : List Char) : Nat :=
  runLength Char.isDigit cs
    + fracLength (cs.drop (runLength Char.isDigit cs))
    + expLength (cs.drop (runLength Char.isDigit cs
        + fracLength (cs.drop (runLength Char.isDigit cs))))

/-- Index of the first occurrence of a triple-quote delimiter
(three copies of `q`) in the input, if any. -/
def findTriple (q : Char) : List Char → Option Nat
  | c1 :: c2 :: c3 :: rest =>
    if c1 = q && c2 = q && c3 = q then some 0
    else (findTriple q (c2 :: c3 :: rest)).map (· + 1)
  | _ => none

/-- Index of the first occurrence of the closing quote `q`. -/
def findCloseQuote (q : Char) : List Char → Option Nat
  | [] => none
  | c :: cs => if c = q then some 0 else (findCloseQuote q cs).map (· + 1)

/-- Lexer mode: normal scanning, or inside a multi-line block string
opened by the triple-quote delimiter built from `q`. -/
inductive LexMode where
  | normal
  | inBlock (q : Char)
deriving DecidableEq

/-- Result of one pattern-matching attempt of the lexer: the token text
to emit (if the matched pattern emits), the number of characters
consumed, and the successor mode. -/
structure StepOut where
  emit : Option String
  consumed : Nat
  mode : LexMode
deriving DecidableEq

/-- Modelled from the spec: one priority-ordered pattern-matching step of
the lexer `doc_to_tokens` (`src/server/utils.py`, not in the tree), per
section 4.1: whitespace run, `#` comment, identifier, two- then
one-character operator, numeric literal, triple-quote delimiter
(entering block mode when unterminated on the line, consuming the whole
literal otherwise), single-line quoted string, and finally the defensive
skip of a single unrecognized character.  Inside block-string mode the
line is consumed up to and including the closing delimiter, or whole
when the delimiter is absent. -/
def lexStep (mode : LexMode) (cs : List Char) : StepOut :=
  match mode with
  | .inBlock q =>
    match findTriple q cs with
    | some k => ⟨none, k + 3, .normal⟩
    | none => ⟨none, cs.length, .inBlock q⟩
  | .normal =>
    match cs with
    | [] => ⟨none, 0, .normal⟩
    | c :: rest =>
      if c.isWhitespace then ⟨none, 1 + runLength Char.isWhitespace rest, .normal⟩
      else if c = '#' then ⟨none, cs.length, .normal⟩
      else if isIdentStart c then
        ⟨some (String.mk (cs.take (1 + runLength isIdentChar rest))),
          1 + runLength isIdentChar rest, .normal⟩
      else if isTwoCharOp cs then ⟨some (String.mk (cs.take 2)), 2, .normal⟩
      else if oneCharOps.contains c then ⟨some (String.mk [c]), 1, .normal⟩
      else if c.isDigit then ⟨none, numberLength cs, .normal⟩
      else if c = squote || c = '"' then
        if cs.take 3 = [c, c, c] then
          match findTriple c (cs.drop 3) with
          | some k => ⟨none, 3 + k + 3, .normal⟩
          | none => ⟨none, cs.length, .inBlock c⟩
        else
          match findCloseQuote c rest with
          | some k => ⟨none, 1 + k + 1, .normal⟩
          | none => ⟨none, cs.length, .normal⟩
      else ⟨none, 1, .normal⟩

/-- A token with absolute position: zero-indexed line, zero-indexed
starting column, and the token text. -/
structure AbsTok where
  line : Nat
  col : Nat
  text : String
deriving DecidableEq

/-- Fuel-bounded scan of one line from column `col`, emitting tokens at
absolute positions.  Fuel models the defensive forward-progress
invariant of the lexer: the theorem for claim C3 shows that fuel equal
to the line length always suffices, i.e. the scan never stalls. -/
def lexLineFuel : Nat → Nat → Nat → LexMode → List Char → Option (List AbsTok × LexMode)
  | 0, _, _, mode, cs => if cs.isEmpty then some ([], mode) else none
  | _ + 1, _, _, mode, [] => some ([], mode)
  | fuel + 1, li, col, mode, c :: rest =>
    let so := lexStep mode (c :: rest)
    (lexLineFuel fuel li (col + so.consumed) so.mode ((c :: rest).drop so.consumed)).map
      (fun r =>
        match so.emit with
        | some s => (⟨li, col, s⟩ :: r.1, r.2)
        | none => r)

/-- Modelled from the spec: document tokenization, line by line, with
the block-string mode carried across lines (section 4.1).  Returns
`none` only if some line scan runs out of fuel, which claim C3 rules
out. -/
def lexDocAux (li : Nat) (mode : LexMode) : List String → Option (List AbsTok)
  | [] => some []
  | l :: ls =>
    match lexLineFuel (l.length + 1) li 0 mode l.toList with
    | none => none
    | some (ts, m') =>
      match lexDocAux (li + 1) m' ls with
      | none => none
      | some rest => some (ts ++ rest)

/-- Tokenize a document given as its list of lines, producing tokens at
absolute positions. -/
def tokenizeAbs (lines : List String) : Option (List AbsTok) :=
  lexDocAux 0 .normal lines

/-- The absolute-position token stream of a document (total form). -/
def absTokens (lines : List String) : List AbsTok :=
  (tokenizeAbs lines).getD []

theorem runLength_le (p : Char → Bool) (cs : List Char) : runLength p cs ≤ cs.length := by
  induction cs with
  | nil => simp [runLength]
  | cons c cs ih =>
    simp only [runLength, List.length_cons]
    split
    · omega
    · omega

theorem runLength_all (p : Char → Bool) (cs : List Char) :
    ∀ x ∈ cs.take (runLength p cs), p x = true := by
  induction cs with
  | nil => simp
  | cons c cs ih =>
    simp only [runLength]
    by_cases h : p c
    · rw [if_pos h]
      intro x hx
      rw [List.take_succ_cons, List.mem_cons] at hx
      rcases hx with rfl | hx
      · exact h
      · exact ih x hx
    · rw [if_neg h]
      simp

theorem fracLength_le (cs : List Char) : fracLength cs ≤ cs.length := by
  cases cs with
  | nil => simp [fracLength]
  | cons c cs =>
    simp only [fracLength, List.length_cons]
    split
    · have := runLength_le Char.isDigit cs
      omega
    · omega

theorem expLength_le (cs : List Char) : expLength cs ≤ cs.length := by
  cases cs with
  | nil => simp [expLength]
  | cons c cs =>
    simp only [expLength]
    split
    · cases cs with
      | nil => simp
      | cons d cs2 =>
        simp only [List.length_cons]
        split
        · have := runLength_le Char.isDigit cs2
          omega
        · split
          · cases cs2 with
            | nil => simp
            | cons d2 cs3 =>
              simp only [List.length_cons]
              split
              · have := runLength_le Char.isDigit cs3
                omega
              · omega
          · omega
    · omega

theorem numberLength_le (cs : List Char) : numberLength cs ≤ cs.length := by
  unfold numberLength
  have h1 := runLength_le Char.isDigit cs
  have h2 := fracLength_le (cs.drop (runLength Char.isDigit cs))
  have h3 := expLength_le
    (cs.drop (runLength Char.isDigit cs + fracLength (cs.drop (runLength Char.isDigit cs))))
  rw [List.length_drop] at h2 h3
  omega

theorem numberLength_pos (c : Char) (cs : List Char) (h : c.isDigit = true) :
    1 ≤ numberLength (c :: cs) := by
  unfold numberLength
  simp only [runLength, h, if_true]
  omega

theorem take3_length (c : Char) (cs : List Char) (h : cs.take 3 = [c, c, c]) :
    3 ≤ cs.length := by
  have := congrArg List.length h
  simp only [List.length_take] at this
  simp only [List.length_cons, List.length_nil] at this
  omega

theorem findTriple_le (q : Char) (cs : List Char) (k : Nat) (h : findTriple q cs = some k) :
    k + 3 ≤ cs.length := by
  induction cs generalizing k with
  | nil => simp [findTriple] at h
  | cons c1 cs ih =>
    cases cs with
    | nil => simp [findTriple] at h
    | cons c2 cs2 =>
      cases cs2 with
      | nil => simp [findTriple] at h
      | cons c3 rest =>
        simp only [findTriple] at h
        split at h
        · cases h
          simp
        · rcases hopt : findTriple q (c2 :: c3 :: rest) with _ | k'
          · rw [hopt] at h
            simp at h
          · rw [hopt] at h
            simp at h
            have := ih k' hopt
            simp only [List.length_cons] at *
            omega

theorem findCloseQuote_le (q : Char) (cs : List Char) (k : Nat)
    (h : findCloseQuote q cs = some k) : k + 1 ≤ cs.length := by
  induction cs generalizing k with
  | nil => simp [findCloseQuote] at h
  | cons c cs ih =>
    simp only [findCloseQuote] at h
    split at h
    · cases h
      simp
    · rcases hopt : findCloseQuote q cs with _ | k'
      · rw [hopt] at h
        simp at h
      · rw [hopt] at h
        simp at h
        have := ih k' hopt
        simp only [List.length_cons]
        omega

theorem isTwoCharOp_length (cs : List Char) (h : isTwoCharOp cs = true) : 2 ≤ cs.length := by
  cases cs with
  | nil => simp [isTwoCharOp] at h
  | cons c1 cs1 =>
    cases cs1 with
    | nil => simp [isTwoCharOp] at h
    | cons c2 cs2 => simp

/-- Forward progress and in-line bound: every lexer step on a nonempty
remainder consumes at least one and at most all remaining characters. -/
theorem lexStep_progress (mode : LexMode) (c : Char) (cs : List Char) :
    1 ≤ (lexStep mode (c :: cs)).consumed
    ∧ (lexStep mode (c :: cs)).consumed ≤ (c :: cs).length := by
  cases mode with
  | inBlock q =>
    simp only [lexStep]
    rcases h : findTriple q (c :: cs) with _ | k
    · simp
    · have := findTriple_le q (c :: cs) k h
      simp only [List.length_cons] at *
      omega
  | normal =>
    show 1 ≤ (lexStep .normal (c :: cs)).consumed
      ∧ (lexStep .normal (c :: cs)).consumed ≤ (c :: cs).length
    simp only [lexStep]
    by_cases h1 : c.isWhitespace = true
    · rw [if_pos h1]
      have := runLength_le Char.isWhitespace cs
      dsimp only
      simp only [List.length_cons]
      omega
    · rw [if_neg h1]
      by_cases h2 : c = '#'
      · rw [if_pos h2]
        dsimp only
        simp only [List.length_cons]
        omega
      · rw [if_neg h2]
        by_cases h3 : isIdentStart c = true
        · rw [if_pos h3]
          have := runLength_le isIdentChar cs
          dsimp only
          simp only [List.length_cons]
          omega
        · rw [if_neg h3]
          by_cases h4 : isTwoCharOp (c :: cs) = true
          · rw [if_pos h4]
            have := isTwoCharOp_length (c :: cs) h4
            dsimp only
            omega
          · rw [if_neg h4]
            by_cases h5 : oneCharOps.contains c = true
            · rw [if_pos h5]
              dsimp only
              simp only [List.length_cons]
              omega
            · rw [if_neg h5]
              by_cases h6 : c.isDigit = true
              · rw [if_pos h6]
                have hp := numberLength_pos c cs h6
                have hl := numberLength_le (c :: cs)
                dsimp only
                omega
              · rw [if_neg h6]
                by_cases h7 : (decide (c = squote) || decide (c = '"')) = true
                · rw [if_pos h7]
                  by_cases h8 : List.take 3 (c :: cs) = [c, c, c]
                  · rw [if_pos h8]
                    have hlen3 := take3_length c (c :: cs) h8
                    rcases h9 : findTriple c (List.drop 3 (c :: cs)) with _ | k
                    · dsimp only
                      simp only [List.length_cons] at *
                      omega
                    · have := findTriple_le c (List.drop 3 (c :: cs)) k h9
                      rw [List.length_drop] at this
                      dsimp only
                      omega
                  · rw [if_neg h8]
                    rcases h9 : findCloseQuote c cs with _ | k
                    · dsimp only
                      simp only [List.length_cons]
                      omega
                    · have := findCloseQuote_le c cs k h9
                      dsimp only
                      simp only [List.length_cons]
                      omega
                · rw [if_neg h7]
                  dsimp only
                  simp only [List.length_cons]
                  omega

theorem isOpToken_two (c1 c2 : Char) (h : (c1, c2) ∈ twoCharOps) :
    isOpToken (String.mk [c1, c2]) = true := by
  unfold isOpToken opTokenStrings
  have hm : String.mk [c1, c2] ∈ twoCharOps.map (fun p => String.mk [p.1, p.2]) :=
    List.mem_map.mpr ⟨(c1, c2), h, rfl⟩
  exact decide_eq_true (List.mem_append.mpr (Or.inl hm))

theorem isOpToken_one (c : Char) (h : c ∈ oneCharOps) :
    isOpToken (String.mk [c]) = true := by
  unfold isOpToken opTokenStrings
  have hm : String.mk [c] ∈ oneCharOps.map (fun c => String.mk [c]) :=
    List.mem_map.mpr ⟨c, h, rfl⟩
  exact decide_eq_true (List.mem_append.mpr (Or.inr hm))

theorem isIdentString_take (c : Char) (rest : List Char) (h : isIdentStart c = true) :
    isIdentString (String.mk (List.take (1 + runLength isIdentChar rest) (c :: rest))) = true := by
  have htake : List.take (1 + runLength isIdentChar rest) (c :: rest)
      = c :: List.take (runLength isIdentChar rest) rest := by
    rw [Nat.add_comm]
    exact List.take_succ_cons
  rw [htake]
  unfold isIdentString
  dsimp only
  simp only [h, Bool.true_and]
  rw [List.all_eq_true]
  exact runLength_all isIdentChar rest

/-- Every emitted token text is at most as long as the characters the
step consumed, and is an identifier or an operator token. -/
theorem lexStep_emit (mode : LexMode) (cs : List Char) (s : String)
    (h : (lexStep mode cs).emit = some s) :
    s.length ≤ (lexStep mode cs).consumed ∧ (isIdentString s || isOpToken s) = true := by
  cases mode with
  | inBlock q =>
    simp only [lexStep] at h ⊢
    rcases h9 : findTriple q cs with _ | k
    · rw [h9] at h
      simp at h
    · rw [h9] at h
      simp at h
  | normal =>
    cases cs with
    | nil =>
      simp [lexStep] at h
    | cons c rest =>
      simp only [lexStep] at h ⊢
      by_cases h1 : c.isWhitespace = true
      · rw [if_pos h1] at h
        simp at h
      · rw [if_neg h1] at h ⊢
        by_cases h2 : c = '#'
        · rw [if_pos h2] at h
          simp at h
        · rw [if_neg h2] at h ⊢
          by_cases h3 : isIdentStart c = true
          · rw [if_pos h3] at h ⊢
            dsimp only at h ⊢
            cases h
            constructor
            · show (String.mk _).length ≤ _
              have hlen : (List.take (1 + runLength isIdentChar rest) (c :: rest)).length
                  ≤ 1 + runLength isIdentChar rest := by
                simp [List.length_take]
              exact hlen
            · rw [isIdentString_take c rest h3]
              simp
          · rw [if_neg h3] at h ⊢
            by_cases h4 : isTwoCharOp (c :: rest) = true
            · rw [if_pos h4] at h ⊢
              dsimp only at h ⊢
              cases h
              cases rest with
              | nil => simp [isTwoCharOp] at h4
              | cons c2 rest2 =>
                have hmem : (c, c2) ∈ twoCharOps := by
                  simp only [isTwoCharOp] at h4
                  simpa using h4
                constructor
                · show (String.mk _).length ≤ _
                  simp [List.length_take]
                · have : List.take 2 (c :: c2 :: rest2) = [c, c2] := by
                    simp [List.take_succ_cons]
                  rw [this, isOpToken_two c c2 hmem]
                  simp
            · rw [if_neg h4] at h ⊢
              by_cases h5 : oneCharOps.contains c = true
              · rw [if_pos h5] at h ⊢
                dsimp only at h ⊢
                cases h
                have hmem : c ∈ oneCharOps := by simpa using h5
                constructor
                · show (String.mk _).length ≤ _
                  simp
                · rw [isOpToken_one c hmem]
                  simp
              · rw [if_neg h5] at h
                by_cases h6 : c.isDigit = true
                · rw [if_pos h6] at h
                  simp at h
                · rw [if_neg h6] at h
                  by_cases h7 : (decide (c = squote) || decide (c = '"')) = true
                  · rw [if_pos h7] at h
                    by_cases h8 : List.take 3 (c :: rest) = [c, c, c]
                    · rw [if_pos h8] at h
                      rcases h9 : findTriple c (List.drop 3 (c :: rest)) with _ | k
                      · rw [h9] at h
                        simp at h
                      · rw [h9] at h
                        simp at h
                    · rw [if_neg h8] at h
                      rcases h9 : findCloseQuote c rest with _ | k
                      · rw [h9] at h
                        simp at h
                      · rw [h9] at h
                        simp at h
                  · rw [if_neg h7] at h
                    simp at h

/-- Fuel equal to the number of remaining characters always suffices:
the per-step forward-progress invariant means the line scan cannot
stall. -/
theorem lexLineFuel_isSome (fuel li col : Nat) (mode : LexMode) (cs : List Char)
    (h : cs.length ≤ fuel) : (lexLineFuel fuel li col mode cs).isSome = true := by
  induction fuel generalizing col mode cs with
  | zero =>
    have hnil : cs = [] := List.eq_nil_of_length_eq_zero (Nat.le_zero.mp h)
    subst hnil
    simp [lexLineFuel]
  | succ fuel ih =>
    cases cs with
    | nil => simp [lexLineFuel]
    | cons c rest =>
      simp only [lexLineFuel]
      have hp := lexStep_progress mode c rest
      have hlen : ((c :: rest).drop (lexStep mode (c :: rest)).consumed).length ≤ fuel := by
        rw [List.length_drop]
        simp only [List.length_cons] at *
        omega
      have hih := ih (col + (lexStep mode (c :: rest)).consumed)
        (lexStep mode (c :: rest)).mode ((c :: rest).drop (lexStep mode (c :: rest)).consumed) hlen
      rcases hres : lexLineFuel fuel li (col + (lexStep mode (c :: rest)).consumed)
          (lexStep mode (c :: rest)).mode ((c :: rest).drop (lexStep mode (c :: rest)).consumed)
        with _ | pr
      · rw [hres] at hih
        simp at hih
      · simp

/-- Columns of a token list are nondecreasing, starting at `c`. -/
def colsFrom : Nat → List AbsTok → Bool
  | _, [] => true
  | c, t :: ts => decide (c ≤ t.col) && colsFrom t.col ts

theorem colsFrom_weaken (c c' : Nat) (ts : List AbsTok) (h : c' ≤ c)
    (hc : colsFrom c ts = true) : colsFrom c' ts = true := by
  cases ts with
  | nil => rfl
  | cons t ts =>
    simp only [colsFrom, Bool.and_eq_true, decide_eq_true_eq] at hc ⊢
    exact ⟨le_trans h hc.1, hc.2⟩

/-- Invariants of the single-line scan: every produced token lies on the
scanned line, starts no earlier than the starting column, ends within
the scanned characters, is an identifier or operator, and columns are
nondecreasing. -/
theorem lexLineFuel_inv (fuel li : Nat) :
    ∀ (col : Nat) (mode : LexMode) (cs : List Char) (ts : List AbsTok) (m' : LexMode),
    lexLineFuel fuel li col mode cs = some (ts, m') →
    (∀ t ∈ ts, t.line = li ∧ col ≤ t.col ∧ t.col + t.text.length ≤ col + cs.length
       ∧ (isIdentString t.text || isOpToken t.text) = true)
    ∧ colsFrom col ts = true := by
  induction fuel with
  | zero =>
    intro col mode cs ts m' h
    simp only [lexLineFuel] at h
    split at h
    · cases h
      exact ⟨by simp, rfl⟩
    · simp at h
  | succ fuel ih =>
    intro col mode cs ts m' h
    cases cs with
    | nil =>
      simp only [lexLineFuel] at h
      cases h
      exact ⟨by simp, rfl⟩
    | cons c rest =>
      simp only [lexLineFuel] at h
      rcases hrec : lexLineFuel fuel li (col + (lexStep mode (c :: rest)).consumed)
          (lexStep mode (c :: rest)).mode (List.drop (lexStep mode (c :: rest)).consumed (c :: rest))
        with _ | pr
      · rw [hrec] at h
        simp at h
      · rw [hrec] at h
        obtain ⟨ts', m''⟩ := pr
        have hIH := ih (col + (lexStep mode (c :: rest)).consumed) (lexStep mode (c :: rest)).mode
          (List.drop (lexStep mode (c :: rest)).consumed (c :: rest)) ts' m'' hrec
        have hp := lexStep_progress mode c rest
        have hdroplen : (List.drop (lexStep mode (c :: rest)).consumed (c :: rest)).length
            = (c :: rest).length - (lexStep mode (c :: rest)).consumed :=
          List.length_drop _ _
        have htail : ∀ t ∈ ts', t.line = li ∧ col ≤ t.col
            ∧ t.col + t.text.length ≤ col + (c :: rest).length
            ∧ (isIdentString t.text || isOpToken t.text) = true := by
          intro t ht
          obtain ⟨hl, hc, hb, hio⟩ := hIH.1 t ht
          refine ⟨hl, by omega, ?_, hio⟩
          rw [hdroplen] at hb
          omega
        rcases hemit : (lexStep mode (c :: rest)).emit with _ | s
        · rw [hemit] at h
          simp only [Option.map_some] at h
          cases h
          refine ⟨htail, ?_⟩
          exact colsFrom_weaken _ _ _ (by omega) hIH.2
        · rw [hemit] at h
          simp only [Option.map_some] at h
          cases h
          have hse := lexStep_emit mode (c :: rest) s (by rw [hemit])
          constructor
          · intro t ht
            rcases List.mem_cons.mp ht with rfl | ht
            · exact ⟨rfl, le_refl _, by simp only []; omega, hse.2⟩
            · exact htail t ht
          · simp only [colsFrom, decide_eq_true_eq]
            refine (Bool.and_eq_true _ _).mpr ⟨decide_eq_true (le_refl col), ?_⟩
            exact colsFrom_weaken _ _ _ (by omega) hIH.2

/-- Position order on tokens relative to a previous position. -/
def posLE (p : Nat × Nat) (t : AbsTok) : Bool :=
  decide (p.1 < t.line) || (decide (p.1 = t.line) && decide (p.2 ≤ t.col))

/-- The token list is sorted by document position, starting after `p`. -/
def sortedFrom : Nat × Nat → List AbsTok → Bool
  | _, [] => true
  | p, t :: ts => posLE p t && sortedFrom (t.line, t.col) ts

/-- Position reached after traversing the token list. -/
def endPosFrom (p : Nat × Nat) : List AbsTok → Nat × Nat
  | [] => p
  | t :: ts => endPosFrom (t.line, t.col) ts

theorem sortedFrom_of_colsFrom (li : Nat) (ts : List AbsTok) :
    ∀ (c : Nat), (∀ t ∈ ts, t.line = li) → colsFrom c ts = true →
    sortedFrom (li, c) ts = true := by
  induction ts with
  | nil =>
    intro c _ _
    rfl
  | cons t ts ih =>
    intro c hl hc
    simp only [colsFrom, Bool.and_eq_true, decide_eq_true_eq] at hc
    have hline : t.line = li := hl t (List.mem_cons_self t ts)
    simp only [sortedFrom, Bool.and_eq_true]
    constructor
    · simp [posLE, hline, hc.1]
    · rw [hline]
      exact ih t.col (fun u hu => hl u (List.mem_cons_of_mem t hu)) hc.2

theorem sortedFrom_append (p : Nat × Nat) (xs ys : List AbsTok)
    (hx : sortedFrom p xs = true) (hy : sortedFrom (endPosFrom p xs) ys = true) :
    sortedFrom p (xs ++ ys) = true := by
  induction xs generalizing p with
  | nil => exact hy
  | cons x xs ih =>
    simp only [sortedFrom, Bool.and_eq_true] at hx
    simp only [List.cons_append, sortedFrom, Bool.and_eq_true]
    exact ⟨hx.1, ih (x.line, x.col) hx.2 hy⟩

theorem endPosFrom_line (li : Nat) (ts : List AbsTok) :
    ∀ c, (∀ t ∈ ts, t.line = li) → (endPosFrom (li, c) ts).1 = li := by
  induction ts with
  | nil =>
    intro c _
    rfl
  | cons t ts ih =>
    intro c hl
    have hline : t.line = li := hl t (List.mem_cons_self t ts)
    simp only [endPosFrom]
    rw [hline]
    exact ih t.col (fun u hu => hl u (List.mem_cons_of_mem t hu))

theorem sortedFrom_mono_line (l1 c1 l2 c2 : Nat) (ts : List AbsTok) (h : l1 < l2)
    (hs : sortedFrom (l2, c2) ts = true) : sortedFrom (l1, c1) ts = true := by
  cases ts with
  | nil => rfl
  | cons t ts =>
    simp only [sortedFrom, Bool.and_eq_true] at hs ⊢
    refine ⟨?_, hs.2⟩
    have hle : l2 ≤ t.line := by
      have := hs.1
      simp only [posLE, Bool.or_eq_true, Bool.and_eq_true, decide_eq_true_eq] at this
      rcases this with h' | h'
      · omega
      · omega
    simp only [posLE, Bool.or_eq_true, Bool.and_eq_true, decide_eq_true_eq]
    exact Or.inl (by omega)

/-- The document scan always succeeds: the line fuel bound holds for
every line. -/
theorem lexDocAux_isSome (ls : List String) : ∀ (li : Nat) (mode : LexMode),
    (lexDocAux li mode ls).isSome = true := by
  induction ls with
  | nil => intro li mode; rfl
  | cons l ls ih =>
    intro li mode
    simp only [lexDocAux]
    have hfl : l.toList.length ≤ l.length + 1 := by
      have : l.toList.length = l.length := rfl
      omega
    have h1 := lexLineFuel_isSome (l.length + 1) li 0 mode l.toList hfl
    rcases hres : lexLineFuel (l.length + 1) li 0 mode l.toList with _ | pr
    · rw [hres] at h1
      simp at h1
    · obtain ⟨ts1, m1⟩ := pr
      dsimp only
      have h2 := ih (li + 1) m1
      rcases hres2 : lexDocAux (li + 1) m1 ls with _ | rest
      · rw [hres2] at h2
        simp at h2
      · simp

/-- Invariants of the document scan: every token lies on a line of the
document, within that line, is an identifier or operator, and the
stream is position-sorted. -/
theorem lexDocAux_inv (ls : List String) : ∀ (li : Nat) (mode : LexMode) (ts : List AbsTok),
    lexDocAux li mode ls = some ts →
    (∀ t ∈ ts, ∃ j, j < ls.length ∧ t.line = li + j
       ∧ t.col + t.text.length ≤ (ls.getD j "").length
       ∧ (isIdentString t.text || isOpToken t.text) = true)
    ∧ sortedFrom (li, 0) ts = true := by
  induction ls with
  | nil =>
    intro li mode ts h
    cases h
    exact ⟨by simp, rfl⟩
  | cons l ls ih =>
    intro li mode ts h
    simp only [lexDocAux] at h
    rcases h1 : lexLineFuel (l.length + 1) li 0 mode l.toList with _ | pr
    · rw [h1] at h
      simp at h
    · obtain ⟨ts1, m1⟩ := pr
      rw [h1] at h
      dsimp only at h
      rcases h2 : lexDocAux (li + 1) m1 ls with _ | rest
      · rw [h2] at h
        simp at h
      · rw [h2] at h
        dsimp only at h
        cases h
        have hline := lexLineFuel_inv (l.length + 1) li 0 mode l.toList ts1 m1 h1
        have hdoc := ih (li + 1) m1 rest h2
        have hlines1 : ∀ t ∈ ts1, t.line = li := fun t ht => (hline.1 t ht).1
        constructor
        · intro t ht
          rcases List.mem_append.mp ht with ht | ht
          · obtain ⟨hl, _, hb, hio⟩ := hline.1 t ht
            refine ⟨0, by simp, by omega, ?_, hio⟩
            have : l.toList.length = l.length := rfl
            simp only [List.getD_cons_zero]
            omega
          · obtain ⟨j, hj, hl, hb, hio⟩ := hdoc.1 t ht
            refine ⟨j + 1, by simp only [List.length_cons]; omega, by omega, ?_, hio⟩
            simpa using hb
        · apply sortedFrom_append
          · exact sortedFrom_of_colsFrom li ts1 0 hlines1 hline.2
          · have hend : (endPosFrom (li, 0) ts1).1 = li := endPosFrom_line li ts1 0 hlines1
            have hmono := sortedFrom_mono_line li (endPosFrom (li, 0) ts1).2 (li + 1) 0 rest
              (by omega) hdoc.2
            have hpair : endPosFrom (li, 0) ts1 = (li, (endPosFrom (li, 0) ts1).2) := by
              have heta := Prod.mk.eta (p := endPosFrom (li, 0) ts1)
              rw [hend] at heta
              exact heta.symm
            rw [hpair]
            exact hmono

/-- A lexer output token in the delta encoding of section 4.1: lines
since the previous emitted token, columns since the previous token when
on the same line (else the absolute column), and the text. -/
structure DeltaTok where
  lineDelta : Nat
  colDelta : Nat
  text : String
deriving DecidableEq

/-- Delta-encode an absolute token stream relative to a previous
position. -/
def deltaEncodeAux (pl pc : Nat) : List AbsTok → List DeltaTok
  | [] => []
  | t :: ts =>
    ⟨t.line - pl, if t.line = pl then t.col - pc else t.col, t.text⟩
      :: deltaEncodeAux t.line t.col ts

/-- Modelled from the spec: the lexer interface
`tokenize(documentText) -> sequence of (lineDelta, columnDelta, text)`
of section 6, as delta encoding of the absolute token stream. -/
def tokenizeDeltas (lines : List String) : List DeltaTok :=
  deltaEncodeAux 0 0 (absTokens lines)

/-- Reconstruct absolute positions from a delta-encoded stream. -/
def deltaDecodeAux (pl pc : Nat) : List DeltaTok → List (Nat × Nat)
  | [] => []
  | d :: ds =>
    (pl + d.lineDelta, if d.lineDelta = 0 then pc + d.colDelta else d.colDelta)
      :: deltaDecodeAux (pl + d.lineDelta)
          (if d.lineDelta = 0 then pc + d.colDelta else d.colDelta) ds

theorem posLE_cases (p : Nat × Nat) (t : AbsTok) (h : posLE p t = true) :
    p.1 < t.line ∨ (p.1 = t.line ∧ p.2 ≤ t.col) := by
  simp only [posLE, Bool.or_eq_true, Bool.and_eq_true, decide_eq_true_eq] at h
  exact h

/-- Delta encoding is inverted by prefix-summing on position-sorted
streams. -/
theorem deltaRoundTrip (ts : List AbsTok) : ∀ (pl pc : Nat),
    sortedFrom (pl, pc) ts = true →
    deltaDecodeAux pl pc (deltaEncodeAux pl pc ts) = ts.map (fun t => (t.line, t.col)) := by
  induction ts with
  | nil =>
    intro pl pc _
    rfl
  | cons t ts ih =>
    intro pl pc h
    simp only [sortedFrom, Bool.and_eq_true] at h
    rcases posLE_cases (pl, pc) t h.1 with hlt | ⟨heq, hcle⟩
    · replace hlt : pl < t.line := hlt
      have hne : ¬(t.line = pl) := by omega
      have hld : ¬(t.line - pl = 0) := by omega
      have hladd : pl + (t.line - pl) = t.line := by omega
      simp only [deltaEncodeAux, deltaDecodeAux, List.map_cons, if_neg hne, if_neg hld, hladd]
      exact congrArg (List.cons _) (ih t.line t.col h.2)
    · replace heq : pl = t.line := heq
      replace hcle : pc ≤ t.col := hcle
      subst heq
      have hc : pc + (t.col - pc) = t.col := by omega
      simp only [deltaEncodeAux, deltaDecodeAux, List.map_cons, eq_self_iff_true, if_true,
        Nat.sub_self, Nat.add_zero, hc]
      exact congrArg (List.cons _) (ih t.line t.col h.2)

/-- The line deltas of the encoding telescope to the line of the last
token. -/
theorem deltaLineSum (ts : List AbsTok) : ∀ (pl pc : Nat),
    sortedFrom (pl, pc) ts = true →
    pl + ((deltaEncodeAux pl pc ts).map DeltaTok.lineDelta).sum
      = (ts.map AbsTok.line).getLastD pl := by
  induction ts with
  | nil =>
    intro pl pc _
    simp [deltaEncodeAux]
  | cons t ts ih =>
    intro pl pc h
    simp only [sortedFrom, Bool.and_eq_true] at h
    have hple : pl ≤ t.line := by
      rcases posLE_cases (pl, pc) t h.1 with hlt | ⟨heq, _⟩
      · replace hlt : pl < t.line := hlt
        omega
      · replace heq : pl = t.line := heq
        omega
    simp only [deltaEncodeAux, List.map_cons, List.sum_cons, List.getLastD_cons]
    have hih := ih t.line t.col h.2
    omega

/-- A line whose trailing triple-quoted string is unterminated at end of
document: the characters of the text x = triple-quote abc, quotes built
explicitly. -/
def unterminatedLine : String :=
  String.mk ['x', ' ', '=', ' ', squote, squote, squote, 'a', 'b', 'c']

/-- Claim C3: tokenization terminates on every input.  Every lexer step
on a nonempty remainder consumes at least one character (the defensive
skip covers characters matching no pattern), so line fuel equal to the
line length suffices and the document scan always succeeds; in
particular an unterminated triple-quoted string at end of document still
tokenizes, dropping into block-string mode rather than looping. -/
theorem claim_C3_termination :
    (∀ (mode : LexMode) (c : Char) (cs : List Char), 1 ≤ (lexStep mode (c :: cs)).consumed)
    ∧ (∀ lines : List String, (tokenizeAbs lines).isSome = true)
    ∧ tokenizeAbs [unterminatedLine] = some [⟨0, 0, "x"⟩, ⟨0, 2, "="⟩] := by
  refine ⟨fun mode c cs => (lexStep_progress mode c cs).1,
    fun lines => lexDocAux_isSome lines 0 .normal, ?_⟩
  decide

/-- Claim C5: the lexer emits only identifier tokens and
operator/punctuation tokens; whitespace, comments, numeric literals and
string literals are consumed without being emitted, so no emitted token
is anything but an identifier or an operator. -/
theorem claim_C5_only_idents_and_ops (lines : List String) (t : AbsTok)
    (h : t ∈ absTokens lines) : (isIdentString t.text || isOpToken t.text) = true := by
  have hsome := lexDocAux_isSome lines 0 .normal
  rcases hres : lexDocAux 0 .normal lines with _ | ts
  · rw [hres] at hsome
    simp at hsome
  · have hinv := lexDocAux_inv lines 0 .normal ts hres
    have habs : absTokens lines = ts := by
      unfold absTokens tokenizeAbs
      rw [hres]
      rfl
    rw [habs] at h
    obtain ⟨_, _, _, _, hio⟩ := hinv.1 t h
    exact hio

/-- Witness for claim C5 on a concrete document: the line
`x + 1 # c` yields the identifier `x` among its tokens. -/
theorem claim_C5_witness :
    ((⟨0, 0, "x"⟩ : AbsTok) ∈ absTokens ["x + 1 # c"])
    ∧ (isIdentString (⟨0, 0, "x"⟩ : AbsTok).text
        || isOpToken (⟨0, 0, "x"⟩ : AbsTok).text) = true :=
  ⟨by decide, claim_C5_only_idents_and_ops ["x + 1 # c"] ⟨0, 0, "x"⟩ (by decide)⟩

/-- Claim C4: lexer positions are delta-encoded relative to the
immediately preceding emitted token — prefix-summing the deltas
reconstructs exactly the absolute positions; the line deltas sum to the
zero-indexed line of the last token; and every token on a line fits
within that line (column plus token length never exceeds the line
length). -/
theorem claim_C4_delta_positions (lines : List String) :
    deltaDecodeAux 0 0 (tokenizeDeltas lines)
      = (absTokens lines).map (fun t => (t.line, t.col))
    ∧ ((tokenizeDeltas lines).map DeltaTok.lineDelta).sum
      = ((absTokens lines).map AbsTok.line).getLastD 0
    ∧ ∀ t ∈ absTokens lines, t.line < lines.length
        ∧ t.col + t.text.length ≤ (lines.getD t.line "").length := by
  have hsome := lexDocAux_isSome lines 0 .normal
  rcases hres : lexDocAux 0 .normal lines with _ | ts
  · rw [hres] at hsome
    simp at hsome
  · have hinv := lexDocAux_inv lines 0 .normal ts hres
    have habs : absTokens lines = ts := by
      unfold absTokens tokenizeAbs
      rw [hres]
      rfl
    unfold tokenizeDeltas
    rw [habs]
    refine ⟨deltaRoundTrip ts 0 0 hinv.2, ?_, ?_⟩
    · have hsum := deltaLineSum ts 0 0 hinv.2
      simpa using hsum
    · intro t ht
      obtain ⟨j, hj, hl, hb, _⟩ := hinv.1 t ht
      have hjl : t.line = j := by omega
      constructor
      · omega
      · rw [hjl]
        exact hb

/-- Witness for claim C4 at a concrete document and token. -/
theorem claim_C4_witness :
    ((⟨0, 0, "x"⟩ : AbsTok) ∈ absTokens ["x = 1"])
    ∧ ((⟨0, 0, "x"⟩ : AbsTok).line < (["x = 1"] : List String).length
        ∧ (⟨0, 0, "x"⟩ : AbsTok).col + (⟨0, 0, "x"⟩ : AbsTok).text.length
          ≤ ((["x = 1"] : List String).getD (⟨0, 0, "x"⟩ : AbsTok).line "").length) :=
  ⟨by decide, (claim_C4_delta_positions ["x = 1"]).2.2 ⟨0, 0, "x"⟩ (by decide)⟩

/-- The fixed semantic-token type enumeration (14 types), in the legend
order of the wire format. -/
inductive TokType where
  | tnamespace
  | ttype
  | tclass
  | tfunction
  | tvariable
  | tparameter
  | tproperty
  | tmethod
  | tkeyword
  | tmodifier
  | toperator
  | tstring
  | tnumber
  | tcomment
deriving DecidableEq

/-- Index of a token type in the fixed enumeration. -/
def typeIndex : TokType → Nat
  | .tnamespace => 0
  | .ttype => 1
  | .tclass => 2
  | .tfunction => 3
  | .tvariable => 4
  | .tparameter => 5
  | .tproperty => 6
  | .tmethod => 7
  | .tkeyword => 8
  | .tmodifier => 9
  | .toperator => 10
  | .tstring => 11
  | .tnumber => 12
  | .tcomment => 13

/-- The fixed semantic-token modifier enumeration (6 modifiers). -/
inductive TokMod where
  | declaration
  | definition
  | readonly
  | staticMod
  | deprecated
  | defaultLibrary
deriving DecidableEq

/-- Bit of a modifier in the fixed enumeration. -/
def modBit : TokMod → Nat
  | .declaration => 0
  | .definition => 1
  | .readonly => 2
  | .staticMod => 3
  | .deprecated => 4
  | .defaultLibrary => 5

/-- Bitmask over the modifier enumeration: bit `i` set if modifier `i`
applies. -/
def modMask (ms : List TokMod) : Nat := (ms.map (fun m => 2 ^ modBit m)).sum

/-- Known members of a class: method names, and property names with
their declared type names. -/
structure ClassInfo where
  methods : List String
  properties : List (String × String)
deriving DecidableEq

/-- Modelled from the spec: the standard-library catalog of
`src/server/predefinition.py` (not in the tree) — a fixed function-name
set, a class-to-members map, and a keyword set (section 3). -/
structure Catalog where
  functions : List String
  classes : List (String × ClassInfo)
  keywords : List String
deriving DecidableEq

/-- The short-lookback context automaton state of the classifier
(section 4.2, state machine view). -/
inductive Ctx where
  | default
  | afterClass
  | afterDef
  | afterFrom
  | afterFromImport
  | afterImport
  | afterFor
  | afterDot (base : String)
deriving DecidableEq

/-- Per-pass classifier state: the read-only catalog plus the three
mutable symbol tables rebuilt each pass (working copies of the catalog),
the set of already sighted variables, the enclosing class, and the
context automaton state. -/
structure PassState where
  catalog : Catalog
  functionNames : List String
  classTable : List (String × ClassInfo)
  variableNames : List (String × Option String)
  seenVars : List String
  currentClass : Option String
  ctx : Ctx
deriving DecidableEq

/-- Fresh per-pass state: working tables are copies of the immutable
catalog, all discovered-symbol sets empty. -/
def initState (cat : Catalog) : PassState :=
  ⟨cat, cat.functions, cat.classes, [], [], none, .default⟩

/-- A classified token: position, text, semantic type and modifiers. -/
structure CTok where
  line : Nat
  col : Nat
  text : String
  ttype : TokType
  mods : List TokMod
deriving DecidableEq

/-- Classify a lexer token with the given type and modifiers. -/
def mkCTok (t : AbsTok) (ty : TokType) (ms : List TokMod) : CTok :=
  ⟨t.line, t.col, t.text, ty, ms⟩

/-- First-match association lookup. -/
def lookupAssoc {α : Type} : List (String × α) → String → Option α
  | [], _ => none
  | (k, v) :: rest, n => if k = n then some v else lookupAssoc rest n

/-- Add a method name to a class entry of the table (no-op when the
class is absent). -/
def addMethodToClass (tbl : List (String × ClassInfo)) (cls m : String) :
    List (String × ClassInfo) :=
  match tbl with
  | [] => []
  | (k, ci) :: rest =>
    if k = cls then (k, ⟨m :: ci.methods, ci.properties⟩) :: rest
    else (k, ci) :: addMethodToClass rest cls m

/-- Add a property name to a class entry of the table (no-op when the
class is absent). -/
def addPropToClass (tbl : List (String × ClassInfo)) (cls p : String) :
    List (String × ClassInfo) :=
  match tbl with
  | [] => []
  | (k, ci) :: rest =>
    if k = cls then (k, ⟨ci.methods, (p, "") :: ci.properties⟩) :: rest
    else (k, ci) :: addPropToClass rest cls p

/-- Replace the context automaton state. -/
def setCtx (st : PassState) (c : Ctx) : PassState := { st with ctx := c }

/-- Register a variable with an optional inferred type and mark it
sighted. -/
def registerVar (st : PassState) (n : String) (ty : Option String) (c : Ctx) : PassState :=
  { st with variableNames := (n, ty) :: st.variableNames,
            seenVars := n :: st.seenVars, ctx := c }

/-- Register a defined function name. -/
def registerFunction (st : PassState) (f : String) : PassState :=
  { st with functionNames := f :: st.functionNames, ctx := .default }

/-- Register a method on the enclosing class when there is one, else as
a plain function. -/
def registerMethod (st : PassState) (m : String) : PassState :=
  match st.currentClass with
  | some c => { st with classTable := addMethodToClass st.classTable c m, ctx := .default }
  | none => { st with functionNames := m :: st.functionNames, ctx := .default }

/-- Register a property discovered via assignment to `self.<name>` on
the enclosing class. -/
def registerSelfProp (st : PassState) (p : String) : PassState :=
  match st.currentClass with
  | some c => { st with classTable := addPropToClass st.classTable c p, ctx := .default }
  | none => setCtx st .default

/-- All-uppercase naming convention for constants. -/
def allCaps (s : String) : Bool :=
  decide (s.data ≠ []) && s.data.all (fun c => c.isUpper || c = '_' || c.isDigit)

/-- Rule 10 lookups, with an explicit successor context: known function
name, known class name, keyword, already sighted variable.  `none` when
the identifier matches none of the tables. -/
def lookupFallbackCtx (st : PassState) (t : AbsTok) (c : Ctx) : Option (CTok × PassState) :=
  if st.functionNames.contains t.text then some (mkCTok t .tfunction [], setCtx st c)
  else if (lookupAssoc st.classTable t.text).isSome then some (mkCTok t .tclass [], setCtx st c)
  else if st.catalog.keywords.contains t.text then some (mkCTok t .tkeyword [], setCtx st c)
  else if st.seenVars.contains t.text then some (mkCTok t .tvariable [], setCtx st c)
  else none

/-- Rule 9 member resolution: resolve the member against the methods and
properties of the known type of the base variable; `none` when the base or
its type is unknown, leaving the member to the generic fallback. -/
def memberResolve (st : PassState) (t : AbsTok) (base : String) : Option (CTok × PassState) :=
  match lookupAssoc st.variableNames base with
  | some (some tyName) =>
    match lookupAssoc st.classTable tyName with
    | some ci =>
      if ci.methods.contains t.text then some (mkCTok t .tmethod [], setCtx st .default)
      else if (lookupAssoc ci.properties t.text).isSome then
        some (mkCTok t .tproperty [], setCtx st .default)
      else none
    | none => none
  | _ => none

/-- Rule 8 type inference: the right-hand side of an assignment infers a
type only when it is a single call to a known class constructor. -/
def inferType (st : PassState) (la2 : List AbsTok) : Option String :=
  match la2 with
  | ctor :: lp :: _ =>
    if isIdentString ctor.text = true ∧ lp.text = "(" ∧ (lookupAssoc st.classTable ctor.text).isSome
    then some ctor.text else none
  | _ => none

/-- Modelled from the spec: the recognition rules of `classify_tokens`
(`src/server/utils.py`, not in the tree), sections 4.2 rules 1 to 5 and
7 to 10, dispatched on the context automaton state with bounded
lookahead `la` (the upcoming, not yet consumed tokens).  Rule 6 (the
ring-generator pattern) is not modelled; no claim depends on it.
Returns `none` when no rule matches, leaving the token to the default
fallback. -/
def ruleClassify (st : PassState) (t : AbsTok) (la : List AbsTok) :
    Option (CTok × PassState) :=
  match st.ctx with
  | .afterClass =>
    if isIdentString t.text = true then
      some (mkCTok t .tclass [.declaration],
        { st with classTable := (t.text, ⟨[], []⟩) :: st.classTable,
                  currentClass := some t.text, ctx := .default })
    else none
  | .afterDef =>
    if isIdentString t.text = true then
      match la with
      | lp :: p1 :: _ =>
        if lp.text = "(" ∧ p1.text = "self" then
          some (mkCTok t .tmethod [.declaration], registerMethod st t.text)
        else some (mkCTok t .tfunction [.declaration], registerFunction st t.text)
      | _ => some (mkCTok t .tfunction [.declaration], registerFunction st t.text)
    else none
  | .afterFrom =>
    if t.text = "import" then some (mkCTok t .tkeyword [], setCtx st .afterFromImport)
    else if t.text = "." then some (mkCTok t .toperator [], st)
    else if isIdentString t.text = true then some (mkCTok t .tnamespace [], st)
    else none
  | .afterFromImport =>
    if isIdentString t.text = true then
      some (mkCTok t .tclass [],
        { st with classTable := (t.text, ⟨[], []⟩) :: st.classTable, ctx := .default })
    else if t.text = "," then some (mkCTok t .toperator [], st)
    else none
  | .afterImport =>
    if isIdentString t.text = true then some (mkCTok t .tnamespace [], setCtx st .default)
    else none
  | .afterFor =>
    if t.text = "in" then some (mkCTok t .tkeyword [], setCtx st .default)
    else if isIdentString t.text = true then
      some (mkCTok t .tvariable [.declaration], registerVar st t.text none .afterFor)
    else if t.text = "," then some (mkCTok t .toperator [], st)
    else none
  | .afterDot base =>
    if t.text = "." then some (mkCTok t .toperator [], st)
    else if isIdentString t.text = true then
      if base = "self" ∧ (la.head?.map AbsTok.text = some "=") then
        some (mkCTok t .tproperty [.declaration], registerSelfProp st t.text)
      else memberResolve st t base
    else none
  | .default =>
    if t.text = "class" then some (mkCTok t .tkeyword [], setCtx st .afterClass)
    else if t.text = "def" then some (mkCTok t .tkeyword [], setCtx st .afterDef)
    else if t.text = "from" then some (mkCTok t .tkeyword [], setCtx st .afterFrom)
    else if t.text = "import" then some (mkCTok t .tkeyword [], setCtx st .afterImport)
    else if t.text = "for" then some (mkCTok t .tkeyword [], setCtx st .afterFor)
    else if isIdentString t.text = true then
      match la with
      | nxt :: la2 =>
        if nxt.text = "=" then
          some (mkCTok t .tvariable
              (if allCaps t.text = true then [.declaration, .readonly] else [.declaration]),
            registerVar st t.text (inferType st la2) .default)
        else if nxt.text = "." then
          match lookupFallbackCtx st t (.afterDot t.text) with
          | some r => some r
          | none => some (mkCTok t .tvariable [.declaration],
              registerVar st t.text none (.afterDot t.text))
        else lookupFallbackCtx st t .default
      | [] => lookupFallbackCtx st t .default
    else none

/-- Modelled from the spec: the default fallback of the classifier —
operator tokens are classified `operator`, and an identifier matching no
rule falls into the default `variable` bucket, with the `declaration`
modifier on first sighting (section 4.2 rule 10 and failure
semantics). -/
def defaultClassify (st : PassState) (t : AbsTok) : CTok × PassState :=
  if isOpToken t.text = true then (mkCTok t .toperator [], setCtx st .default)
  else (mkCTok t .tvariable [.declaration], registerVar st t.text none .default)

/-- One classification step: the first matching rule, else the default
fallback — classification never fails. -/
def classifyStep (st : PassState) (t : AbsTok) (la : List AbsTok) : CTok × PassState :=
  (ruleClassify st t la).getD (defaultClassify st t)

/-- Modelled from the spec: the single forward pass of `classify_tokens`
over the token stream (section 4.2), threading the per-pass state. -/
def classifyGo (st : PassState) : List AbsTok → List CTok × PassState
  | [] => ([], st)
  | t :: rest =>
    let r := classifyStep st t rest
    let rs := classifyGo r.2 rest
    (r.1 :: rs.1, rs.2)

/-- The classifier interface `classify(tokens, catalog)` of section 6:
builds fresh per-pass tables from the catalog and runs the single
forward pass, returning the classified stream and the final state. -/
def classify (cat : Catalog) (toks : List AbsTok) : List CTok × PassState :=
  classifyGo (initState cat) toks

/-- Modelled from the spec: the encoder of section 4.3 — five integers
per classified token: line delta, column delta, text length, type
enumeration index, modifier bitmask. -/
def encodeTokens (pl pc : Nat) : List CTok → List Nat
  | [] => []
  | t :: ts =>
    (t.line - pl) :: (if t.line = pl then t.col - pc else t.col)
      :: t.text.length :: typeIndex t.ttype :: modMask t.mods
      :: encodeTokens t.line t.col ts

/-- Decoder for the five-integer-per-token flat array: chunks the array
by five and prefix-sums the deltas back to absolute positions. -/
def decodeTokens (pl pc : Nat) : List Nat → Option (List (Nat × Nat × Nat × Nat × Nat))
  | [] => some []
  | dl :: dc :: len :: ty :: mm :: rest =>
    (decodeTokens (pl + dl) (if dl = 0 then pc + dc else dc) rest).map
      (fun ds => (pl + dl, if dl = 0 then pc + dc else dc, len, ty, mm) :: ds)
  | _ => none

/-- The quintuple a classified token encodes to, at absolute position. -/
def tokenQuint (c : CTok) : Nat × Nat × Nat × Nat × Nat :=
  (c.line, c.col, c.text.length, typeIndex c.ttype, modMask c.mods)

/-- A small concrete catalog used by the scenario conjuncts. -/
def sampleCatalog : Catalog :=
  { functions := ["gcd"]
  , classes := [("Matrix", ⟨["det"], [("nrows", "Integer")]⟩)]
  , keywords := ["class", "def", "from", "import", "for", "in", "pass", "print", "return"] }

theorem registerMethod_catalog (st : PassState) (m : String) :
    (registerMethod st m).catalog = st.catalog := by
  unfold registerMethod
  split
  · rfl
  · rfl

theorem registerSelfProp_catalog (st : PassState) (p : String) :
    (registerSelfProp st p).catalog = st.catalog := by
  unfold registerSelfProp
  split
  · rfl
  · rfl

theorem memberResolve_props (st : PassState) (t : AbsTok) (base : String)
    (r : CTok × PassState) (h : memberResolve st t base = some r) :
    r.1.line = t.line ∧ r.1.col = t.col ∧ r.1.text = t.text ∧ r.2.catalog = st.catalog := by
  unfold memberResolve at h
  repeat' split at h
  all_goals first
    | (cases h; exact ⟨rfl, rfl, rfl, rfl⟩)
    | simp at h

theorem lookupFallbackCtx_props (st : PassState) (t : AbsTok) (c : Ctx)
    (r : CTok × PassState) (h : lookupFallbackCtx st t c = some r) :
    r.1.line = t.line ∧ r.1.col = t.col ∧ r.1.text = t.text ∧ r.2.catalog = st.catalog := by
  unfold lookupFallbackCtx at h
  repeat' split at h
  all_goals first
    | (cases h; exact ⟨rfl, rfl, rfl, rfl⟩)
    | simp at h

/-- Any rule that fires classifies the token in place (same position and
text) and never touches the catalog. -/
theorem ruleClassify_props (st : PassState) (t : AbsTok) (la : List AbsTok)
    (r : CTok × PassState) (h : ruleClassify st t la = some r) :
    r.1.line = t.line ∧ r.1.col = t.col ∧ r.1.text = t.text ∧ r.2.catalog = st.catalog := by
  unfold ruleClassify at h
  repeat' split at h
  all_goals first
    | (cases h; exact ⟨rfl, rfl, rfl, rfl⟩)
    | (cases h; exact ⟨rfl, rfl, rfl, registerMethod_catalog _ _⟩)
    | (cases h; exact ⟨rfl, rfl, rfl, registerSelfProp_catalog _ _⟩)
    | (exact memberResolve_props st t _ r h)
    | (exact lookupFallbackCtx_props st t _ r h)
    | (cases h; exact lookupFallbackCtx_props st t _ _ (by assumption))
    | simp at h

/-- Every classification step classifies the token in place and
preserves the catalog. -/
theorem classifyStep_props (st : PassState) (t : AbsTok) (la : List AbsTok) :
    (classifyStep st t la).1.line = t.line ∧ (classifyStep st t la).1.col = t.col
    ∧ (classifyStep st t la).1.text = t.text
    ∧ (classifyStep st t la).2.catalog = st.catalog := by
  unfold classifyStep
  rcases hr : ruleClassify st t la with _ | r
  · simp only [Option.getD_none]
    unfold defaultClassify
    split
    · exact ⟨rfl, rfl, rfl, rfl⟩
    · exact ⟨rfl, rfl, rfl, rfl⟩
  · simp only [Option.getD_some]
    exact ruleClassify_props st t la r hr

/-- The classifier neither inserts nor drops tokens and keeps every
position and text of each token. -/
theorem classifyGo_shape (toks : List AbsTok) : ∀ (st : PassState),
    ((classifyGo st toks).1).map (fun c => (c.line, c.col, c.text))
      = toks.map (fun t => (t.line, t.col, t.text)) := by
  induction toks with
  | nil =>
    intro st
    rfl
  | cons t rest ih =>
    intro st
    simp only [classifyGo, List.map_cons]
    obtain ⟨h1, h2, h3, _⟩ := classifyStep_props st t rest
    rw [h1, h2, h3, ih]

/-- Length preservation of the classification pass. -/
theorem classifyGo_length (toks : List AbsTok) : ∀ (st : PassState),
    ((classifyGo st toks).1).length = toks.length := by
  induction toks with
  | nil =>
    intro st
    rfl
  | cons t rest ih =>
    intro st
    simp only [classifyGo, List.length_cons]
    rw [ih]

/-- The catalog component of the state is invariant across the whole
pass. -/
theorem classifyGo_catalog (toks : List AbsTok) : ∀ (st : PassState),
    ((classifyGo st toks).2).catalog = st.catalog := by
  induction toks with
  | nil =>
    intro st
    rfl
  | cons t rest ih =>
    intro st
    simp only [classifyGo]
    rw [ih]
    exact (classifyStep_props st t rest).2.2.2

/-- Claim C8: no classification pass ever mutates the built-in catalog:
the catalog component of the state after any run over any token stream
is exactly the input catalog; only the per-pass working copies of the
tables are updated. -/
theorem claim_C8_catalog_immutable (cat : Catalog) (st : PassState) (toks : List AbsTok) :
    (classifyGo st toks).2.catalog = st.catalog
    ∧ (classify cat toks).2.catalog = cat :=
  ⟨classifyGo_catalog toks st, classifyGo_catalog toks (initState cat)⟩

/-- Claim C1: the tokenize-classify-encode pipeline is deterministic:
classification carries no state from one invocation into the next — the
catalog coming out of a pass equals the one that went in, so re-running
the pipeline on the same text with the carried-over catalog produces the
identical classified stream and identical encoded output. -/
theorem claim_C1_deterministic (cat : Catalog) (lines : List String) :
    classify ((classify cat (absTokens lines)).2.catalog) (absTokens lines)
      = classify cat (absTokens lines)
    ∧ encodeTokens 0 0 (classify ((classify cat (absTokens lines)).2.catalog)
        (absTokens lines)).1
      = encodeTokens 0 0 (classify cat (absTokens lines)).1
    ∧ (classify cat (absTokens lines)).2.catalog = cat := by
  have hc : (classify cat (absTokens lines)).2.catalog = cat :=
    classifyGo_catalog (absTokens lines) (initState cat)
  rw [hc]
  exact ⟨rfl, rfl, rfl⟩

/-- An identifier is never an operator token. -/
theorem ident_not_op (s : String) (h : isIdentString s = true) : isOpToken s = false := by
  cases hb : isOpToken s
  · rfl
  · exfalso
    have hmem : s ∈ opTokenStrings := of_decide_eq_true hb
    fin_cases hmem <;> exact absurd h (by decide)

/-- Claim C9: classification is total and never fails hard: the pass
preserves the stream length (a complete, well-formed output for every
input); an identifier matching no rule receives the default `variable`
fallback; and a malformed construct — `class` not followed by an
identifier — matches no rule, merely resetting the automaton so the
token falls through to the generic fallback. -/
theorem claim_C9_total_classification :
    (∀ (st : PassState) (toks : List AbsTok), ((classifyGo st toks).1).length = toks.length)
    ∧ (∀ (st : PassState) (t : AbsTok) (la : List AbsTok),
        ruleClassify st t la = none → isIdentString t.text = true →
        (classifyStep st t la).1.ttype = .tvariable)
    ∧ (∀ (st : PassState) (t : AbsTok) (la : List AbsTok),
        st.ctx = .afterClass → isIdentString t.text = false →
        ruleClassify st t la = none ∧ (classifyStep st t la).2.ctx = .default) := by
  refine ⟨fun st toks => classifyGo_length toks st, ?_, ?_⟩
  · intro st t la hr hident
    unfold classifyStep
    rw [hr]
    simp only [Option.getD_none]
    unfold defaultClassify
    rw [ident_not_op t.text hident]
    rw [if_neg (by simp : ¬(false = true))]
    rfl
  · intro st t la hctx hident
    obtain ⟨cat, fns, ctbl, vars, seen, cur, ctx⟩ := st
    replace hctx : ctx = Ctx.afterClass := hctx
    subst hctx
    have hnone : ruleClassify ⟨cat, fns, ctbl, vars, seen, cur, .afterClass⟩ t la = none := by
      unfold ruleClassify
      dsimp only
      rw [hident]
      rw [if_neg (by simp : ¬(false = true))]
    refine ⟨hnone, ?_⟩
    unfold classifyStep
    rw [hnone]
    simp only [Option.getD_none]
    unfold defaultClassify
    split
    · rfl
    · rfl

/-- Witness for claim C9: an unknown identifier in a fresh state matches
no rule and is classified `variable`; a parenthesis right after `class`
resets the automaton. -/
theorem claim_C9_witness :
    (classifyStep (initState sampleCatalog) ⟨0, 0, "zzz"⟩ []).1.ttype = TokType.tvariable
    ∧ (classifyStep (setCtx (initState sampleCatalog) .afterClass) ⟨0, 6, "("⟩ []).2.ctx
      = Ctx.default :=
  ⟨claim_C9_total_classification.2.1 (initState sampleCatalog) ⟨0, 0, "zzz"⟩ []
      (by decide) (by decide),
   (claim_C9_total_classification.2.2 (setCtx (initState sampleCatalog) .afterClass)
      ⟨0, 6, "("⟩ [] rfl (by decide)).2⟩

theorem addMethodToClass_mem (tbl : List (String × ClassInfo)) (c m : String) :
    (lookupAssoc tbl c).isSome = true →
    ∃ ci, lookupAssoc (addMethodToClass tbl c m) c = some ci
      ∧ ci.methods.contains m = true := by
  induction tbl with
  | nil =>
    intro h
    simp [lookupAssoc] at h
  | cons kv rest ih =>
    intro h
    obtain ⟨k, ci⟩ := kv
    by_cases hk : k = c
    · subst hk
      refine ⟨⟨m :: ci.methods, ci.properties⟩, ?_, ?_⟩
      · unfold addMethodToClass
        rw [if_pos rfl]
        unfold lookupAssoc
        rw [if_pos rfl]
      · simp
    · have h' : (lookupAssoc rest c).isSome = true := by
        unfold lookupAssoc at h
        rw [if_neg hk] at h
        exact h
      obtain ⟨ci', hl, hm⟩ := ih h'
      refine ⟨ci', ?_, hm⟩
      unfold addMethodToClass
      rw [if_neg hk]
      unfold lookupAssoc
      rw [if_neg hk]
      exact hl

/-- Claim C6: after `def`, the defined name is classified `method` with
modifier `declaration` when the first declared parameter is `self`
(registered on the enclosing class), else `function` with
`declaration` (registered in the function table); and in the scenario
`class Foo: / def bar(self): / pass` the token `Foo` is classified
class/declaration and `bar` method/declaration. -/
theorem claim_C6_def_method_function :
    (∀ (st : PassState) (t : AbsTok) (la : List AbsTok), st.ctx = .default → t.text = "def" →
      (classifyStep st t la).1.ttype = .tkeyword ∧ (classifyStep st t la).2.ctx = .afterDef)
    ∧ (∀ (st : PassState) (name lp p1 : AbsTok) (la : List AbsTok) (c : String),
        st.ctx = .afterDef → isIdentString name.text = true → lp.text = "(" →
        p1.text = "self" → st.currentClass = some c →
        (lookupAssoc st.classTable c).isSome = true →
        (classifyStep st name (lp :: p1 :: la)).1.ttype = .tmethod
        ∧ (classifyStep st name (lp :: p1 :: la)).1.mods = [.declaration]
        ∧ ∃ ci, lookupAssoc (classifyStep st name (lp :: p1 :: la)).2.classTable c = some ci
            ∧ ci.methods.contains name.text = true)
    ∧ (∀ (st : PassState) (name lp p1 : AbsTok) (la : List AbsTok),
        st.ctx = .afterDef → isIdentString name.text = true → lp.text = "(" →
        p1.text ≠ "self" →
        (classifyStep st name (lp :: p1 :: la)).1.ttype = .tfunction
        ∧ (classifyStep st name (lp :: p1 :: la)).1.mods = [.declaration]
        ∧ (classifyStep st name (lp :: p1 :: la)).2.functionNames.contains name.text = true)
    ∧ (((classify sampleCatalog
          (absTokens ["class Foo:", "    def bar(self):", "        pass"])).1.filter
            (fun c => c.text = "Foo")).map (fun c => (c.ttype, c.mods))
        = [(.tclass, [.declaration])]
      ∧ ((classify sampleCatalog
          (absTokens ["class Foo:", "    def bar(self):", "        pass"])).1.filter
            (fun c => c.text = "bar")).map (fun c => (c.ttype, c.mods))
        = [(.tmethod, [.declaration])]) := by
  refine ⟨?_, ?_, ?_, by decide, by decide⟩
  · intro st t la hctx ht
    obtain ⟨cat, fns, ctbl, vars, seen, cur, ctx⟩ := st
    replace hctx : ctx = Ctx.default := hctx
    subst hctx
    unfold classifyStep ruleClassify
    dsimp only
    rw [ht]
    rw [if_neg (by decide : ¬("def" : String) = "class"), if_pos rfl]
    exact ⟨rfl, rfl⟩
  · intro st name lp p1 la c hctx hname hlp hp1 hcur hlook
    obtain ⟨cat, fns, ctbl, vars, seen, cur, ctx⟩ := st
    replace hctx : ctx = Ctx.afterDef := hctx
    subst hctx
    replace hcur : cur = some c := hcur
    subst hcur
    replace hlook : (lookupAssoc ctbl c).isSome = true := hlook
    unfold classifyStep ruleClassify
    dsimp only
    rw [if_pos hname, if_pos ⟨hlp, hp1⟩]
    simp only [Option.getD_some]
    refine ⟨rfl, rfl, ?_⟩
    unfold registerMethod
    dsimp only
    exact addMethodToClass_mem ctbl c name.text hlook
  · intro st name lp p1 la hctx hname hlp hp1
    obtain ⟨cat, fns, ctbl, vars, seen, cur, ctx⟩ := st
    replace hctx : ctx = Ctx.afterDef := hctx
    subst hctx
    unfold classifyStep ruleClassify
    dsimp only
    rw [if_pos hname, if_neg (fun hand => hp1 hand.2)]
    simp only [Option.getD_some]
    refine ⟨rfl, rfl, ?_⟩
    unfold registerFunction
    dsimp only
    simp

/-- A demonstration state inside a class body, for the C6 witness. -/
def afterDefState : PassState :=
  { initState sampleCatalog with
      ctx := .afterDef, currentClass := some "Foo", classTable := [("Foo", ⟨[], []⟩)] }

/-- Witness for claim C6 at concrete states and tokens: `bar` after
`def` with first parameter `self` is a method declaration registered on
the enclosing class, and with a non-`self` first parameter it is a
function declaration. -/
theorem claim_C6_witness :
    ((classifyStep afterDefState ⟨1, 8, "bar"⟩ [⟨1, 11, "("⟩, ⟨1, 12, "self"⟩]).1.ttype
        = TokType.tmethod
      ∧ (classifyStep afterDefState ⟨1, 8, "bar"⟩ [⟨1, 11, "("⟩, ⟨1, 12, "self"⟩]).1.mods
        = [TokMod.declaration]
      ∧ ∃ ci, lookupAssoc (classifyStep afterDefState ⟨1, 8, "bar"⟩
            [⟨1, 11, "("⟩, ⟨1, 12, "self"⟩]).2.classTable "Foo" = some ci
          ∧ ci.methods.contains "bar" = true)
    ∧ (classifyStep afterDefState ⟨1, 8, "baz"⟩ [⟨1, 11, "("⟩, ⟨1, 12, "n"⟩]).1.ttype
      = TokType.tfunction :=
  ⟨claim_C6_def_method_function.2.1 afterDefState ⟨1, 8, "bar"⟩ ⟨1, 11, "("⟩ ⟨1, 12, "self"⟩
      [] "Foo" rfl (by decide) rfl rfl rfl (by decide),
   (claim_C6_def_method_function.2.2.1 afterDefState ⟨1, 8, "baz"⟩ ⟨1, 11, "("⟩ ⟨1, 12, "n"⟩
      [] rfl (by decide) rfl (by decide)).1⟩

/-- Inside a `from` statement the module-path tokens (dotted identifier
path) leave the classifier state unchanged. -/
theorem classifyStep_afterFrom_keep (st : PassState) (p : AbsTok) (la : List AbsTok)
    (hctx : st.ctx = .afterFrom)
    (hp : (isIdentString p.text = true ∧ p.text ≠ "import") ∨ p.text = ".") :
    (classifyStep st p la).2 = st := by
  obtain ⟨cat, fns, ctbl, vars, seen, cur, ctx⟩ := st
  replace hctx : ctx = Ctx.afterFrom := hctx
  subst hctx
  unfold classifyStep ruleClassify
  dsimp only
  rcases hp with ⟨hident, hni⟩ | hdot
  · rw [if_neg hni]
    have hnd : ¬(p.text = ".") := by
      intro he
      rw [he] at hident
      exact absurd hident (by decide)
    rw [if_neg hnd, if_pos hident]
    rfl
  · rw [hdot]
    rw [if_neg (by decide : ¬("." : String) = "import"), if_pos rfl]
    rfl

/-- After `from`, any dotted module path followed by `import` leads to
the next identifier being classified `class`. -/
theorem classifyGo_afterFrom_path (path : List AbsTok) : ∀ (st : PassState),
    st.ctx = .afterFrom →
    (∀ p ∈ path, (isIdentString p.text = true ∧ p.text ≠ "import") ∨ p.text = ".") →
    ∀ (imp y : AbsTok) (rest : List AbsTok),
    imp.text = "import" → isIdentString y.text = true →
    (((classifyGo st (path ++ imp :: y :: rest)).1).get? (path.length + 1)).map CTok.ttype
      = some .tclass := by
  induction path with
  | nil =>
    intro st hctx hpath imp y rest himp hy
    have hstep : classifyStep st imp (y :: rest)
        = (mkCTok imp .tkeyword [], setCtx st .afterFromImport) := by
      obtain ⟨cat, fns, ctbl, vars, seen, cur, ctx⟩ := st
      replace hctx : ctx = Ctx.afterFrom := hctx
      subst hctx
      unfold classifyStep ruleClassify
      dsimp only
      rw [himp, if_pos rfl]
      rfl
    have hy' : (classifyStep (setCtx st .afterFromImport) y rest).1.ttype = .tclass := by
      obtain ⟨cat, fns, ctbl, vars, seen, cur, ctx⟩ := st
      unfold setCtx classifyStep ruleClassify
      dsimp only
      rw [if_pos hy]
      rfl
    show (((classifyGo st (imp :: y :: rest)).1).get? (([] : List AbsTok).length + 1)).map
      CTok.ttype = some .tclass
    simp only [classifyGo, List.length_nil, hstep]
    rw [List.get?_cons_succ, List.get?_cons_zero]
    simp [hy']
  | cons p path' ih =>
    intro st hctx hpath imp y rest himp hy
    have hkeep := classifyStep_afterFrom_keep st p (path' ++ imp :: y :: rest) hctx
      (hpath p (List.mem_cons_self p path'))
    show (((classifyGo st (p :: (path' ++ imp :: y :: rest))).1).get?
      ((p :: path').length + 1)).map CTok.ttype = some .tclass
    rw [show (p :: path').length + 1 = (path'.length + 1) + 1 from by simp]
    simp only [classifyGo]
    rw [hkeep, List.get?_cons_succ]
    exact ih st hctx (fun q hq => hpath q (List.mem_cons_of_mem p hq)) imp y rest himp hy

/-- Claim C7: in `from X import Y` the imported name `Y` is always
classified `class`, even when it names a function — all imports are
conservatively classes; in particular `Matrix` in
`from sage.all import Matrix` is classified `class`. -/
theorem claim_C7_import_as_class :
    (∀ (st : PassState) (t : AbsTok) (la : List AbsTok), st.ctx = .default → t.text = "from" →
      (classifyStep st t la).1.ttype = .tkeyword ∧ (classifyStep st t la).2.ctx = .afterFrom)
    ∧ (∀ (st : PassState) (path : List AbsTok) (imp y : AbsTok) (rest : List AbsTok),
        st.ctx = .afterFrom →
        (∀ p ∈ path, (isIdentString p.text = true ∧ p.text ≠ "import") ∨ p.text = ".") →
        imp.text = "import" → isIdentString y.text = true →
        (((classifyGo st (path ++ imp :: y :: rest)).1).get? (path.length + 1)).map CTok.ttype
          = some .tclass)
    ∧ ((classify sampleCatalog (absTokens ["from sage.all import Matrix"])).1.map
        (fun c => (c.text, c.ttype))
      = [("from", .tkeyword), ("sage", .tnamespace), (".", .toperator), ("all", .tnamespace),
         ("import", .tkeyword), ("Matrix", .tclass)]) := by
  refine ⟨?_, fun st path imp y rest hctx hpath himp hy =>
    classifyGo_afterFrom_path path st hctx hpath imp y rest himp hy, by decide⟩
  intro st t la hctx ht
  obtain ⟨cat, fns, ctbl, vars, seen, cur, ctx⟩ := st
  replace hctx : ctx = Ctx.default := hctx
  subst hctx
  unfold classifyStep ruleClassify
  dsimp only
  rw [ht]
  rw [if_neg (by decide : ¬("from" : String) = "class"),
    if_neg (by decide : ¬("from" : String) = "def"), if_pos rfl]
  exact ⟨rfl, rfl⟩

/-- Witness for claim C7 at a concrete state and statement. -/
theorem claim_C7_witness :
    (((classifyGo (setCtx (initState sampleCatalog) .afterFrom)
        ([⟨0, 5, "sage"⟩, ⟨0, 9, "."⟩, ⟨0, 10, "all"⟩]
          ++ ⟨0, 14, "import"⟩ :: ⟨0, 21, "Matrix"⟩ :: [])).1).get? 4).map CTok.ttype
      = some TokType.tclass :=
  claim_C7_import_as_class.2.1 (setCtx (initState sampleCatalog) .afterFrom)
    [⟨0, 5, "sage"⟩, ⟨0, 9, "."⟩, ⟨0, 10, "all"⟩] ⟨0, 14, "import"⟩ ⟨0, 21, "Matrix"⟩ []
    rfl (by decide) rfl (by decide)

/-- Position order for classified tokens. -/
def posLEC (p : Nat × Nat) (t : CTok) : Bool :=
  decide (p.1 < t.line) || (decide (p.1 = t.line) && decide (p.2 ≤ t.col))

/-- Position-sortedness of a classified stream. -/
def sortedFromC : Nat × Nat → List CTok → Bool
  | _, [] => true
  | p, t :: ts => posLEC p t && sortedFromC (t.line, t.col) ts

/-- Sortedness transfers along the position-preserving classification. -/
theorem sortedFromC_of_shape (cts : List CTok) : ∀ (ts : List AbsTok) (p : Nat × Nat),
    cts.map (fun c => (c.line, c.col, c.text)) = ts.map (fun t => (t.line, t.col, t.text)) →
    sortedFrom p ts = true → sortedFromC p cts = true := by
  induction cts with
  | nil =>
    intro ts p _ _
    rfl
  | cons c cs ih =>
    intro ts p hmap hs
    cases ts with
    | nil => simp at hmap
    | cons t ts' =>
      simp only [List.map_cons, List.cons.injEq] at hmap
      obtain ⟨hhead, htail⟩ := hmap
      have hl : c.line = t.line := congrArg (fun q => q.1) hhead
      have hc : c.col = t.col := congrArg (fun q => q.2.1) hhead
      simp only [sortedFrom, Bool.and_eq_true] at hs
      simp only [sortedFromC, Bool.and_eq_true]
      constructor
      · rw [show posLEC p c = posLE p t from by unfold posLEC posLE; rw [hl, hc]]
        exact hs.1
      · rw [hl, hc]
        exact ih ts' (t.line, t.col) htail hs.2

/-- The encoder emits exactly five integers per token. -/
theorem encodeTokens_length (cts : List CTok) : ∀ (pl pc : Nat),
    (encodeTokens pl pc cts).length = 5 * cts.length := by
  induction cts with
  | nil =>
    intro pl pc
    rfl
  | cons c cs ih =>
    intro pl pc
    simp only [encodeTokens, List.length_cons, ih]
    omega

/-- Decoding the five-integer encoding of a position-sorted classified
stream reconstructs for every token the absolute line, column, length, type
index and modifier bitmask. -/
theorem encodeDecodeTokens (cts : List CTok) : ∀ (pl pc : Nat),
    sortedFromC (pl, pc) cts = true →
    decodeTokens pl pc (encodeTokens pl pc cts) = some (cts.map tokenQuint) := by
  induction cts with
  | nil =>
    intro pl pc _
    rfl
  | cons c cs ih =>
    intro pl pc h
    simp only [sortedFromC, Bool.and_eq_true] at h
    have hple : pl < c.line ∨ (pl = c.line ∧ pc ≤ c.col) := by
      have h1 := h.1
      simp only [posLEC, Bool.or_eq_true, Bool.and_eq_true, decide_eq_true_eq] at h1
      exact h1
    rcases hple with hlt | ⟨heq, hcle⟩
    · have hne : ¬(c.line = pl) := by omega
      have hld : ¬(c.line - pl = 0) := by omega
      have hladd : pl + (c.line - pl) = c.line := by omega
      simp only [encodeTokens, decodeTokens, if_neg hne, if_neg hld, hladd]
      rw [ih c.line c.col h.2]
      rfl
    · subst heq
      have hc : pc + (c.col - pc) = c.col := by omega
      simp only [encodeTokens, decodeTokens, eq_self_iff_true, if_true, Nat.sub_self,
        Nat.add_zero, hc]
      rw [ih c.line c.col h.2]
      rfl

/-- Claim C2: the encoder emits exactly five integers per classified
token, and decoding the flat array reconstructs for each token exactly
the absolute line, column, text length, type-enumeration index and
modifier bitmask that were encoded. -/
theorem claim_C2_encoding_roundtrip (cat : Catalog) (lines : List String) :
    (encodeTokens 0 0 (classify cat (absTokens lines)).1).length
      = 5 * ((classify cat (absTokens lines)).1).length
    ∧ decodeTokens 0 0 (encodeTokens 0 0 (classify cat (absTokens lines)).1)
      = some (((classify cat (absTokens lines)).1).map tokenQuint) := by
  refine ⟨encodeTokens_length _ 0 0, ?_⟩
  have hsome := lexDocAux_isSome lines 0 .normal
  rcases hres : lexDocAux 0 .normal lines with _ | ts
  · rw [hres] at hsome
    simp at hsome
  · have hinv := lexDocAux_inv lines 0 .normal ts hres
    have habs : absTokens lines = ts := by
      unfold absTokens tokenizeAbs
      rw [hres]
      rfl
    have hshape := classifyGo_shape (absTokens lines) (initState cat)
    have hsorted : sortedFromC (0, 0) (classify cat (absTokens lines)).1 = true := by
      apply sortedFromC_of_shape _ (absTokens lines) (0, 0) hshape
      rw [habs]
      exact hinv.2
    exact encodeDecodeTokens _ 0 0 hsorted

end SageVsc
